import Mathlib

/-!
Buddy memory allocation: a shallow embedding of `buddy_memory_allocation.c`.

The C file is embedded function by function.  Unsigned 32-bit arithmetic is
`Nat` arithmetic reduced modulo `2 ^ 32`; `int` values are `Int`.  The node
table `longest` is a `List Nat` whose length is the number of `unsigned`
cells that `malloc` reserved for it; an access outside that list is the
fault `Fault.bounds`.  Loops whose termination is not evident from the source
take an iteration budget and report `Fault.fuel` when it is used up.

Two lines of the C file are read the only way they can be:
* line 103, `index = PARENT(index)`, lacks its `;` and is read as the
  statement `index = PARENT(index);`
* line 148 reads `self->left_longest[index]`; `struct buddy` has no such
  member and the line is read as `self->longest[index]`, the walk of
  `buddy_free` at line 119.
-/

namespace BuddyAlloc

/-! ## Machine arithmetic and the preprocessor definitions -/

/-- Number of values of a C `unsigned` (32 bits). -/
def UMOD : Nat := 2 ^ 32

/-- Conversion of an `unsigned` value to `int` (two's complement). -/
def toInt (u : Nat) : Int :=
  if u % UMOD < 2 ^ 31 then ((u % UMOD : Nat) : Int) else ((u % UMOD : Nat) : Int) - 2 ^ 32

/-- Conversion of an `int` value to `unsigned`. -/
def toUnsigned (i : Int) : Nat := (i % (2 ^ 32 : Int)).toNat

/-- The definition `#define MAX(a, b) ( (a) > (b) ? (a) : (b) )`. -/
def MAX (a b : Nat) : Nat := if a > b then a else b

/-- The definition `#define IS_POW(x) ( !( (x) & ((x) - 1) ) )`, on a value `x >= 0`
(every use in the file is on such a value; at `x = 0` the wrapped `x - 1`
is and-ed with `0`, which gives `0` as the truncated subtraction does). -/
def IS_POW (x : Nat) : Bool := (x &&& (x - 1)) == 0

/-- The definition `#define PARENT(index) ( ((index) + 1) >> 1 -1 )`.  In C the additive
operators bind tighter than the shifts, so the shift count is `1 - 1`. -/
def PARENT (index : Nat) : Nat := ((index + 1) % UMOD) >>> (1 - 1)

/-- The definition `#define LEFT_SUB(index) ( (index) << 1 + 1 )`: the shift count is
`1 + 1`. -/
def LEFT_SUB (index : Nat) : Nat := (index <<< (1 + 1)) % UMOD

/-- The definition `#define RIGHT_SUB(index) ( (index) << 1 + 2 )`: the shift count is
`1 + 2`. -/
def RIGHT_SUB (index : Nat) : Nat := (index <<< (1 + 2)) % UMOD

/-- The function `static unsigned fixsize(unsigned x)`. -/
def fixsize (x : Nat) : Nat :=
  let x := x ||| (x >>> 1)
  let x := x ||| (x >>> 2)
  let x := x ||| (x >>> 4)
  let x := x ||| (x >>> 8)
  let x := x ||| (x >>> 16)
  (x + 1) % UMOD

/-! ## The allocator state and its faults -/

/-- The type `struct buddy`: the field `size` and the cells of `longest` that lie in
the block obtained from `malloc`. -/
structure buddy where
  size : Nat
  longest : List Nat
deriving DecidableEq, Repr

/-- Ways in which a call does not return normally. -/
inductive Fault where
  /-- an access to `longest` outside the allocated cells -/
  | bounds
  /-- the `assert` at the head of `buddy_free` or `buddy_size` fails -/
  | assertion
  /-- the loop is still running when the iteration budget is used up -/
  | fuel
deriving DecidableEq, Repr

/-- Read of `self->longest[i]`. -/
def rd (longest : List Nat) (i : Nat) : Except Fault Nat :=
  match longest[i]? with
  | some v => .ok v
  | none => .error .bounds

/-- Write `self->longest[i] = v`. -/
def wr (longest : List Nat) (i v : Nat) : Except Fault (List Nat) :=
  if i < longest.length then .ok (longest.set i v) else .error .bounds

/-! ## `buddy_new` -/

/-- The loop of `buddy_new` (lines 58-62), from counter value `i` on:
`for (...; i < node_size - 1; ++i) { if (IS_POW(i + 1)) node_size >> 1;
self->longest[i] = node_size; }`.  The statement `node_size >> 1;` computes a
value and drops it, so `node_size` is the same in every iteration.  The
first argument bounds the number of iterations.  The counter stays below the
number of cells, so each write lands in the table. -/
def buddy_new_loop : Nat → Nat → Nat → List Nat → List Nat
  | 0, _, _, longest => longest
  | n + 1, node_size, i, longest =>
    if i < (node_size + (UMOD - 1)) % UMOD then
      let node_size := if IS_POW (i + 1) then node_size else node_size
      buddy_new_loop n node_size (i + 1) (longest.set i node_size)
    else longest

/-- The function `struct buddy* buddy_new(int size)`; `none` is the `NULL` result.
`malloc(2 * size * sizeof(unsigned))` is taken to succeed: it holds the field
`size` and `2 * size - 1` cells of `longest`, which start out as `0` here and
are all overwritten.  The arithmetic on `size` wraps.  The loop runs
`node_size - 1` times, `node_size` being constant; the budget handed to it is
`node_size`. -/
def buddy_new (size : Int) : Option buddy :=
  if size < 1 || !IS_POW size.toNat then none
  else
    let cells : List Nat := List.replicate (2 * size.toNat - 1) 0
    let node_size := toUnsigned (size * 2)
    some { size := toUnsigned size, longest := buddy_new_loop node_size node_size 0 cells }

/-! ## `buddy_alloc` -/

/-- Lines 78-81 of `buddy_alloc`, the normalisation of the request:
`if (size <= 0) size = 1; else if (!IS_POW(size)) size = fixsize(size);`.
The result is the value of `size` as every later comparison reads it, that
is converted to `unsigned`. -/
def alloc_size (size : Int) : Nat :=
  if size ≤ 0 then 1
  else if !IS_POW size.toNat then fixsize (toUnsigned size)
  else toUnsigned size

/-- The descent loop of `buddy_alloc` (lines 86-91):
`for (node_size = self->size; node_size != size; node_size >> 1) { ... }`.
The step expression `node_size >> 1` drops its value, so `node_size` is
handed on unchanged.  Returns the final `index` and `node_size`. -/
def alloc_descend (longest : List Nat) (size : Nat) :
    Nat → Nat → Nat → Except Fault (Nat × Nat)
  | fuel, node_size, index =>
    if node_size = size then .ok (index, node_size)
    else
      match fuel with
      | 0 => .error .fuel
      | fuel + 1 =>
        match rd longest (LEFT_SUB index) with
        | .error e => .error e
        | .ok l =>
          let index := if l ≥ size then LEFT_SUB index else RIGHT_SUB index
          alloc_descend longest size fuel node_size index

/-- The loop of `buddy_alloc` that resets the parents (lines 102-105):
`while (index) { index = PARENT(index); self->longest[index] =
MAX(self->longest[LEFT_SUB(index)], self->longest[RIGHT_SUB(index)]); }`. -/
def alloc_reset : Nat → List Nat → Nat → Except Fault (List Nat)
  | fuel, longest, index =>
    if index = 0 then .ok longest
    else
      match fuel with
      | 0 => .error .fuel
      | fuel + 1 =>
        let index := PARENT index
        match rd longest (LEFT_SUB index) with
        | .error e => .error e
        | .ok l =>
          match rd longest (RIGHT_SUB index) with
          | .error e => .error e
          | .ok r =>
            match wr longest index (MAX l r) with
            | .error e => .error e
            | .ok longest => alloc_reset fuel longest index

/-- The function `int buddy_alloc(struct buddy *self, int size)` on a non-`NULL` handle:
the returned `int` and the state after the call.  `fuel` bounds the
iterations of each of the two loops. -/
def buddy_alloc (fuel : Nat) (self : buddy) (size : Int) : Except Fault (Int × buddy) :=
  let size := alloc_size size
  match rd self.longest 0 with
  | .error e => .error e
  | .ok root =>
    if root < size then .ok (-1, self)
    else
      match alloc_descend self.longest size fuel self.size 0 with
      | .error e => .error e
      | .ok (index, node_size) =>
        match wr self.longest index 0 with
        | .error e => .error e
        | .ok longest =>
          let offset := ((index + 1) * node_size + (UMOD - self.size % UMOD)) % UMOD
          match alloc_reset fuel longest index with
          | .error e => .error e
          | .ok longest => .ok (toInt offset, { self with longest := longest })

/-! ## `buddy_free` and `buddy_size` -/

/-- How the first loop of `buddy_free` ends. -/
inductive Walk where
  /-- the `return` of line 122 was taken -/
  | returned
  /-- the loop condition failed at `index`, with this `node_size` -/
  | found (index node_size : Nat)
deriving DecidableEq, Repr

/-- The first loop of `buddy_free` (lines 119-123):
`for ( ; self->longest[index]; index = PARENT(index)) { node_size <<= 1;
if (index == 0) return; }`. -/
def free_walk (longest : List Nat) : Nat → Nat → Nat → Except Fault Walk
  | fuel, node_size, index =>
    match rd longest index with
    | .error e => .error e
    | .ok v =>
      if v = 0 then .ok (.found index node_size)
      else
        match fuel with
        | 0 => .error .fuel
        | fuel + 1 =>
          let node_size := (node_size <<< 1) % UMOD
          if index = 0 then .ok .returned
          else free_walk longest fuel node_size (PARENT index)

/-- The second loop of `buddy_free` (lines 127-138). -/
def free_merge : Nat → List Nat → Nat → Nat → Except Fault (List Nat)
  | fuel, longest, node_size, index =>
    if index = 0 then .ok longest
    else
      match fuel with
      | 0 => .error .fuel
      | fuel + 1 =>
        let index := PARENT index
        let node_size := (node_size <<< 1) % UMOD
        match rd longest (LEFT_SUB index) with
        | .error e => .error e
        | .ok left_longest =>
          match rd longest (RIGHT_SUB index) with
          | .error e => .error e
          | .ok right_longest =>
            let v := if (left_longest + right_longest) % UMOD = node_size then node_size
                     else MAX left_longest right_longest
            match wr longest index v with
            | .error e => .error e
            | .ok longest => free_merge fuel longest node_size index

/-- The `assert(self && offset >= 0 && offset < self->size)` of `buddy_free`
and `buddy_size`, on a non-`NULL` handle; the last comparison is unsigned. -/
def offset_ok (self : buddy) (offset : Int) : Bool :=
  decide (offset ≥ 0) && decide (toUnsigned offset < self.size)

/-- The function `void buddy_free(struct buddy *self, int offset)`: the state after the
call. -/
def buddy_free (fuel : Nat) (self : buddy) (offset : Int) : Except Fault buddy :=
  if !offset_ok self offset then .error .assertion
  else
    let node_size := 1
    let index := (toUnsigned offset + self.size + (UMOD - 1)) % UMOD
    match free_walk self.longest fuel node_size index with
    | .error e => .error e
    | .ok .returned => .ok self
    | .ok (.found index node_size) =>
      match wr self.longest index node_size with
      | .error e => .error e
      | .ok longest =>
        match free_merge fuel longest node_size index with
        | .error e => .error e
        | .ok longest => .ok { self with longest := longest }

/-- The loop of `buddy_size` (lines 148-149):
`for (index = ...; self->longest[index]; index = PARENT(index))
node_size <<= 1;`.  Returns the final `node_size`. -/
def size_walk (longest : List Nat) : Nat → Nat → Nat → Except Fault Nat
  | fuel, node_size, index =>
    match rd longest index with
    | .error e => .error e
    | .ok v =>
      if v = 0 then .ok node_size
      else
        match fuel with
        | 0 => .error .fuel
        | fuel + 1 => size_walk longest fuel ((node_size <<< 1) % UMOD) (PARENT index)

/-- The function `int buddy_size(struct buddy *self, int offset)`. -/
def buddy_size (fuel : Nat) (self : buddy) (offset : Int) : Except Fault Int :=
  if !offset_ok self offset then .error .assertion
  else
    match size_walk self.longest fuel 1 ((toUnsigned offset + self.size + (UMOD - 1)) % UMOD) with
    | .error e => .error e
    | .ok node_size => .ok (toInt node_size)

/-! ## Call sequences -/

/-- The values of a C `int`. -/
def isInt (i : Int) : Prop := -(2 ^ 31) ≤ i ∧ i < 2 ^ 31

/-- Reachability, `Reachable C self live`: the state `self` is reached from `buddy_new(C)`
by calls of `buddy_alloc` and calls of `buddy_free` on live offsets, each of
which returned; `live` lists the offsets returned by a call of `buddy_alloc`
that did not fail and not passed to `buddy_free` since. -/
inductive Reachable (C : Int) : buddy → List Int → Prop where
  | new {self : buddy} : isInt C → buddy_new C = some self → Reachable C self []
  | alloc {self self' : buddy} {live : List Int} {fuel : Nat} {size o : Int} :
      Reachable C self live → isInt size →
      buddy_alloc fuel self size = .ok (o, self') → o ≠ -1 →
      Reachable C self' (o :: live)
  | alloc_fail {self self' : buddy} {live : List Int} {fuel : Nat} {size : Int} :
      Reachable C self live → isInt size →
      buddy_alloc fuel self size = .ok (-1, self') →
      Reachable C self' live
  | free {self self' : buddy} {live : List Int} {fuel : Nat} {o : Int} :
      Reachable C self live → o ∈ live →
      buddy_free fuel self o = .ok self' →
      Reachable C self' (live.erase o)

/-- The state that `buddy_new (2 ^ k)` builds: every cell holds `2 * 2 ^ k`. -/
def fresh (k : Nat) : buddy :=
  { size := 2 ^ k, longest := List.replicate (2 ^ (k + 1) - 1) (2 ^ (k + 1)) }

/-- The state `fresh k` after the root cell has been set to `0`. -/
def taken (k : Nat) : buddy :=
  { size := 2 ^ k, longest := 0 :: List.replicate (2 ^ (k + 1) - 2) (2 ^ (k + 1)) }

/-! ## Arithmetic of `IS_POW` and `fixsize` -/

theorem testBit_of_mem_Ico {y k : Nat} (h1 : 2 ^ k ≤ y) (h2 : y < 2 ^ (k + 1)) :
    y.testBit k = true := by
  rw [Nat.testBit_to_div_mod]
  have : y / 2 ^ k = 1 := by
    apply Nat.div_eq_of_lt_le
    · simpa using h1
    · simpa [pow_succ, Nat.mul_comm] using h2
  simp [this]

theorem bracket (n : Nat) (hn : n ≠ 0) : ∃ k, 2 ^ k ≤ n ∧ n < 2 ^ (k + 1) := by
  obtain ⟨k, hk, hhi⟩ := Nat.exists_most_significant_bit hn
  exact ⟨k, Nat.testBit_implies_ge hk, Nat.lt_pow_two_of_testBit n (fun i hi => hhi i (by omega))⟩

theorem IS_POW_two_pow (k : Nat) : IS_POW (2 ^ k) = true := by
  have : 2 ^ k &&& (2 ^ k - 1) = 0 := by
    apply Nat.eq_of_testBit_eq
    intro i
    simp [Nat.testBit_two_pow]
  simp [IS_POW, this]

theorem IS_POW_iff (n : Nat) (hn : 1 ≤ n) : IS_POW n = true ↔ ∃ k, n = 2 ^ k := by
  constructor
  · intro h
    obtain ⟨k, hlo, hhi⟩ := bracket n (by omega)
    refine ⟨k, ?_⟩
    by_contra hne
    have h1 : 2 ^ k ≤ n - 1 := by omega
    have h2 : n - 1 < 2 ^ (k + 1) := by omega
    have hb : (n &&& (n - 1)).testBit k = true := by
      rw [Nat.testBit_and, testBit_of_mem_Ico hlo hhi, testBit_of_mem_Ico h1 h2]; rfl
    have h0 : n &&& (n - 1) = 0 := by simpa [IS_POW] using h
    rw [h0] at hb
    simp at hb
  · rintro ⟨k, rfl⟩
    exact IS_POW_two_pow k

/-- One bit-fill step: or-ing in the copy shifted by `w` doubles the window. -/
theorem fill_step {x y w : Nat}
    (h : ∀ i, y.testBit i = true ↔ ∃ j, j < w ∧ x.testBit (i + j) = true) :
    ∀ i, (y ||| (y >>> w)).testBit i = true ↔ ∃ j, j < w + w ∧ x.testBit (i + j) = true := by
  intro i
  rw [Nat.testBit_or, Nat.testBit_shiftRight, Bool.or_eq_true, h, h]
  constructor
  · rintro (⟨j, hj, hb⟩ | ⟨j, hj, hb⟩)
    · exact ⟨j, by omega, hb⟩
    · exact ⟨w + j, by omega, by rw [← hb]; congr 1; omega⟩
  · rintro ⟨j, hj, hb⟩
    by_cases hjw : j < w
    · exact Or.inl ⟨j, hjw, hb⟩
    · exact Or.inr ⟨j - w, by omega, by rw [← hb]; congr 1; omega⟩

theorem fill_all {x k : Nat} (hk : k ≤ 30) (h1 : 2 ^ k ≤ x) (h2 : x < 2 ^ (k + 1))
    (y1 y2 y3 y4 y5 : Nat) (e1 : y1 = x ||| (x >>> 1)) (e2 : y2 = y1 ||| (y1 >>> 2))
    (e3 : y3 = y2 ||| (y2 >>> 4)) (e4 : y4 = y3 ||| (y3 >>> 8))
    (e5 : y5 = y4 ||| (y4 >>> 16)) : y5 = 2 ^ (k + 1) - 1 := by
  have s0 : ∀ i, x.testBit i = true ↔ ∃ j, j < 1 ∧ x.testBit (i + j) = true := by
    intro i
    constructor
    · intro h; exact ⟨0, by omega, by simpa using h⟩
    · rintro ⟨j, hj, hb⟩
      have : j = 0 := by omega
      subst this; simpa using hb
  have s1 := fill_step (w := 1) s0
  rw [← e1] at s1
  have s2 := fill_step (w := 2) s1
  rw [← e2] at s2
  have s3 := fill_step (w := 4) s2
  rw [← e3] at s3
  have s4 := fill_step (w := 8) s3
  rw [← e4] at s4
  have s5 := fill_step (w := 16) s4
  rw [← e5] at s5
  apply Nat.eq_of_testBit_eq
  intro i
  rw [Nat.testBit_two_pow_sub_one, Bool.eq_iff_iff, s5 i]
  simp only [decide_eq_true_eq]
  constructor
  · rintro ⟨j, _, hb⟩
    by_contra hlt
    have : x < 2 ^ (i + j) := lt_of_lt_of_le h2 (Nat.pow_le_pow_right (by omega) (by omega))
    rw [Nat.testBit_lt_two_pow this] at hb
    exact Bool.false_ne_true hb
  · intro hi
    refine ⟨k - i, by omega, ?_⟩
    have : i + (k - i) = k := by omega
    rw [this]
    exact testBit_of_mem_Ico h1 h2

theorem fixsize_eq {x k : Nat} (hk : k ≤ 30) (h1 : 2 ^ k ≤ x) (h2 : x < 2 ^ (k + 1)) :
    fixsize x = 2 ^ (k + 1) := by
  have hpos : 0 < 2 ^ (k + 1) := by positivity
  have hlt : 2 ^ (k + 1) < UMOD := by
    unfold UMOD
    exact Nat.pow_lt_pow_right (by omega) (by omega)
  unfold fixsize
  simp only []
  rw [fill_all hk h1 h2 _ _ _ _ _ rfl rfl rfl rfl rfl, Nat.sub_add_cancel hpos,
    Nat.mod_eq_of_lt hlt]

/-! ## The preprocessor definitions at work -/

theorem PARENT_eq (i : Nat) : PARENT i = (i + 1) % UMOD := by
  simp [PARENT]

theorem LEFT_SUB_zero : LEFT_SUB 0 = 0 := by decide

theorem RIGHT_SUB_zero : RIGHT_SUB 0 = 0 := by decide

theorem toUnsigned_ofNat {n : Nat} (h : n < UMOD) : toUnsigned (n : Int) = n := by
  unfold toUnsigned
  unfold UMOD at h
  have : ((n : Int) % (2 ^ 32 : Int)) = (n : Int) := Int.emod_eq_of_lt (by omega) (by omega)
  rw [this]; simp

/-! ## `buddy_new` -/

theorem buddy_new_loop_fill (ns : Nat) (h1 : 1 ≤ ns) (h2 : ns < UMOD) :
    ∀ (m n i : Nat), m ≤ n → i + m = ns - 1 →
      buddy_new_loop n ns i (List.replicate i ns ++ List.replicate m 0)
        = List.replicate (ns - 1) ns := by
  have hb : (ns + (UMOD - 1)) % UMOD = ns - 1 := by
    unfold UMOD at *
    omega
  intro m
  induction m with
  | zero =>
    intro n i _ hi
    have : i = ns - 1 := by omega
    subst this
    cases n with
    | zero => simp [buddy_new_loop]
    | succ n => simp [buddy_new_loop, hb]
  | succ m ih =>
    intro n i hn hi
    obtain ⟨n, rfl⟩ : ∃ n', n = n' + 1 := ⟨n - 1, by omega⟩
    have hlt : i < ns - 1 := by omega
    have hset : (List.replicate i ns ++ List.replicate (m + 1) 0).set i ns
        = List.replicate (i + 1) ns ++ List.replicate m 0 := by
      rw [List.replicate_succ (n := m), List.replicate_succ' (n := i)]
      simp [List.set_append]
    simp only [buddy_new_loop, hb, hlt, if_true, ite_self]
    rw [hset]
    exact ih n (i + 1) (by omega) (by omega)

theorem buddy_new_two_pow (k : Nat) (hk : k ≤ 30) :
    buddy_new ((2 : Int) ^ k) = some (fresh k) := by
  have hpos : (0 : Int) < 2 ^ k := by positivity
  have hcast : ((2 : Int) ^ k) = ((2 ^ k : Nat) : Int) := by push_cast; rfl
  have hlt : 2 ^ k < UMOD := by
    unfold UMOD; exact Nat.pow_lt_pow_right (by omega) (by omega)
  have hlt2 : 2 ^ (k + 1) < UMOD := by
    unfold UMOD; exact Nat.pow_lt_pow_right (by omega) (by omega)
  have hnat : ((2 : Int) ^ k).toNat = 2 ^ k := by rw [hcast]; exact Int.toNat_ofNat _
  have hsz : toUnsigned ((2 : Int) ^ k) = 2 ^ k := by rw [hcast]; exact toUnsigned_ofNat hlt
  have hns : toUnsigned ((2 : Int) ^ k * 2) = 2 ^ (k + 1) := by
    have : ((2 : Int) ^ k * 2) = ((2 ^ (k + 1) : Nat) : Int) := by push_cast; ring
    rw [this]; exact toUnsigned_ofNat hlt2
  have hguard : ¬ ((2 : Int) ^ k < 1) := by omega
  unfold buddy_new
  simp only [hnat, hsz, hns, IS_POW_two_pow, hguard, decide_False, Bool.not_true, Bool.or_self,
    Bool.false_eq_true, if_false]
  have h1 : 1 ≤ 2 ^ (k + 1) := Nat.one_le_two_pow
  have hlen : 2 * 2 ^ k - 1 = 2 ^ (k + 1) - 1 := by rw [pow_succ]; omega
  have := buddy_new_loop_fill (2 ^ (k + 1)) h1 hlt2 (2 ^ (k + 1) - 1) (2 ^ (k + 1)) 0
    (by omega) (by omega)
  simp only [List.replicate_zero, List.nil_append] at this
  rw [hlen, this]
  rfl

theorem int_two_pow_of_isInt {C : Int} (hC : isInt C) (h1 : 1 ≤ C)
    (hp : IS_POW C.toNat = true) : ∃ k, k ≤ 30 ∧ C = 2 ^ k := by
  obtain ⟨k, hk⟩ := (IS_POW_iff C.toNat (by omega)).1 hp
  have hCk : C = ((2 ^ k : Nat) : Int) := by rw [← hk]; omega
  refine ⟨k, ?_, by rw [hCk]; push_cast; rfl⟩
  by_contra hgt
  have : 2 ^ 31 ≤ 2 ^ k := Nat.pow_le_pow_right (by omega) (by omega)
  have h2 := hC.2
  rw [hCk] at h2
  have : ((2 ^ 31 : Nat) : Int) ≤ ((2 ^ k : Nat) : Int) := by exact_mod_cast this
  norm_num at this h2
  omega

theorem buddy_new_some {C : Int} {self : buddy} (hC : isInt C) (h : buddy_new C = some self) :
    ∃ k, k ≤ 30 ∧ C = 2 ^ k ∧ self = fresh k := by
  have hg : ¬ (C < 1) ∧ IS_POW C.toNat = true := by
    unfold buddy_new at h
    by_cases hc : C < 1
    · simp [hc] at h
    · by_cases hp : IS_POW C.toNat = true
      · exact ⟨hc, hp⟩
      · simp [hc, hp] at h
  obtain ⟨k, hk, rfl⟩ := int_two_pow_of_isInt hC (by omega) hg.2
  rw [buddy_new_two_pow k hk] at h
  exact ⟨k, hk, rfl, (Option.some.inj h).symm⟩

/-! ## `buddy_alloc` never leaves the root -/

theorem alloc_descend_root (v : Nat) (rest : List Nat) (size node_size : Nat) :
    ∀ fuel, alloc_descend (v :: rest) size fuel node_size 0
      = if node_size = size then .ok (0, node_size) else .error .fuel := by
  intro fuel
  induction fuel with
  | zero => unfold alloc_descend; rfl
  | succ fuel ih =>
    unfold alloc_descend
    by_cases h : node_size = size
    · simp [h]
    · simp only [h, if_false, LEFT_SUB_zero, RIGHT_SUB_zero, rd, List.getElem?_cons_zero, ite_self]
      simpa [h] using ih

theorem alloc_reset_root (fuel : Nat) (longest : List Nat) :
    alloc_reset fuel longest 0 = .ok longest := by
  cases fuel <;> simp [alloc_reset]

theorem buddy_alloc_eq (fuel sz v : Nat) (rest : List Nat) (size : Int) :
    buddy_alloc fuel { size := sz, longest := v :: rest } size
      = if v < alloc_size size then .ok (-1, { size := sz, longest := v :: rest })
        else if sz = alloc_size size then
          .ok (toInt ((sz + (UMOD - sz % UMOD)) % UMOD), { size := sz, longest := 0 :: rest })
        else .error .fuel := by
  unfold buddy_alloc
  simp only [rd, List.getElem?_cons_zero, alloc_descend_root]
  by_cases h1 : v < alloc_size size
  · simp [h1]
  · by_cases h2 : sz = alloc_size size
    · simp [h1, h2, wr, alloc_reset_root]
    · simp [h1, h2]

theorem offset_zero {sz : Nat} : toInt ((sz + (UMOD - sz % UMOD)) % UMOD) = 0 := by
  have h : (sz + (UMOD - sz % UMOD)) % UMOD = 0 := by
    unfold UMOD
    omega
  rw [h]; rfl

/-! ## The upward walks run towards the end of the table -/

theorem free_walk_zero (l : List Nat) (node_size i : Nat) :
    free_walk l 0 node_size i
      = match rd l i with
        | .error e => .error e
        | .ok v => if v = 0 then .ok (.found i node_size) else .error .fuel := by
  rw [free_walk]

theorem free_walk_succ (l : List Nat) (fuel node_size i : Nat) :
    free_walk l (fuel + 1) node_size i
      = match rd l i with
        | .error e => .error e
        | .ok v =>
          if v = 0 then .ok (.found i node_size)
          else if i = 0 then .ok .returned
          else free_walk l fuel ((node_size <<< 1) % UMOD) (PARENT i) := by
  rw [free_walk]

theorem size_walk_zero (l : List Nat) (node_size i : Nat) :
    size_walk l 0 node_size i
      = match rd l i with
        | .error e => .error e
        | .ok v => if v = 0 then .ok node_size else .error .fuel := by
  rw [size_walk]

theorem size_walk_succ (l : List Nat) (fuel node_size i : Nat) :
    size_walk l (fuel + 1) node_size i
      = match rd l i with
        | .error e => .error e
        | .ok v =>
          if v = 0 then .ok node_size
          else size_walk l fuel ((node_size <<< 1) % UMOD) (PARENT i) := by
  rw [size_walk]

theorem free_walk_off (l : List Nat) (hlen : l.length < UMOD) :
    ∀ (fuel node_size i : Nat), 1 ≤ i → (∀ j v, i ≤ j → l[j]? = some v → v ≠ 0) →
      free_walk l fuel node_size i
        = if l.length - i ≤ fuel then .error .bounds else .error .fuel := by
  intro fuel
  induction fuel with
  | zero =>
    intro node_size i hi hnz
    rw [free_walk_zero]; unfold rd
    cases hget : l[i]? with
    | none =>
      have : l.length ≤ i := List.getElem?_eq_none_iff.1 hget
      simp [this]
    | some v =>
      have hv : v ≠ 0 := hnz i v (le_refl _) hget
      have : i < l.length := (List.getElem?_eq_some_iff.1 hget).1
      have h' : ¬ (l.length - i = 0) := by omega
      simp [hv, h']
  | succ fuel ih =>
    intro node_size i hi hnz
    rw [free_walk_succ]; unfold rd
    cases hget : l[i]? with
    | none =>
      have : l.length ≤ i := List.getElem?_eq_none_iff.1 hget
      have h' : l.length - i ≤ fuel + 1 := by omega
      simp [h']
    | some v =>
      have hv : v ≠ 0 := hnz i v (le_refl _) hget
      have hlt : i < l.length := (List.getElem?_eq_some_iff.1 hget).1
      have hi0 : i ≠ 0 := by omega
      have hp : PARENT i = i + 1 := by
        rw [PARENT_eq]; exact Nat.mod_eq_of_lt (by omega)
      simp only [hv, hi0, if_false, hp]
      rw [ih _ (i + 1) (by omega) (fun j v hj => hnz j v (by omega))]
      by_cases hc : l.length - (i + 1) ≤ fuel
      · have : l.length - i ≤ fuel + 1 := by omega
        simp [hc, this]
      · have : ¬ (l.length - i ≤ fuel + 1) := by omega
        simp [hc, this]

theorem size_walk_off (l : List Nat) (hlen : l.length < UMOD) :
    ∀ (fuel node_size i : Nat), (∀ j v, i ≤ j → l[j]? = some v → v ≠ 0) →
      size_walk l fuel node_size i
        = if l.length - i ≤ fuel then .error .bounds else .error .fuel := by
  intro fuel
  induction fuel with
  | zero =>
    intro node_size i hnz
    rw [size_walk_zero]; unfold rd
    cases hget : l[i]? with
    | none =>
      have : l.length ≤ i := List.getElem?_eq_none_iff.1 hget
      simp [this]
    | some v =>
      have hv : v ≠ 0 := hnz i v (le_refl _) hget
      have : i < l.length := (List.getElem?_eq_some_iff.1 hget).1
      have h' : ¬ (l.length - i = 0) := by omega
      simp [hv, h']
  | succ fuel ih =>
    intro node_size i hnz
    rw [size_walk_succ]; unfold rd
    cases hget : l[i]? with
    | none =>
      have : l.length ≤ i := List.getElem?_eq_none_iff.1 hget
      have h' : l.length - i ≤ fuel + 1 := by omega
      simp [h']
    | some v =>
      have hv : v ≠ 0 := hnz i v (le_refl _) hget
      have hlt : i < l.length := (List.getElem?_eq_some_iff.1 hget).1
      have hp : PARENT i = i + 1 := by
        rw [PARENT_eq]; exact Nat.mod_eq_of_lt (by omega)
      simp only [hv, if_false, hp]
      rw [ih _ (i + 1) (fun j v hj => hnz j v (by omega))]
      by_cases hc : l.length - (i + 1) ≤ fuel
      · have : l.length - i ≤ fuel + 1 := by omega
        simp [hc, this]
      · have : ¬ (l.length - i ≤ fuel + 1) := by omega
        simp [hc, this]

theorem buddy_free_off {self : buddy} {o : Int} (idx : Nat)
    (hlen : self.longest.length < UMOD) (hok : offset_ok self o = true)
    (hidx : (toUnsigned o + self.size + (UMOD - 1)) % UMOD = idx) (h1 : 1 ≤ idx)
    (hnz : ∀ j v, idx ≤ j → self.longest[j]? = some v → v ≠ 0) (fuel : Nat) :
    buddy_free fuel self o
      = if self.longest.length - idx ≤ fuel then .error .bounds else .error .fuel := by
  unfold buddy_free
  simp only [hok, Bool.not_true, Bool.false_eq_true, if_false, hidx]
  rw [free_walk_off _ hlen fuel 1 idx h1 hnz]
  by_cases hc : self.longest.length - idx ≤ fuel <;> simp [hc]

theorem buddy_size_off {self : buddy} {o : Int} (idx : Nat)
    (hlen : self.longest.length < UMOD) (hok : offset_ok self o = true)
    (hidx : (toUnsigned o + self.size + (UMOD - 1)) % UMOD = idx)
    (hnz : ∀ j v, idx ≤ j → self.longest[j]? = some v → v ≠ 0) (fuel : Nat) :
    buddy_size fuel self o
      = if self.longest.length - idx ≤ fuel then .error .bounds else .error .fuel := by
  unfold buddy_size
  simp only [hok, Bool.not_true, Bool.false_eq_true, if_false, hidx]
  rw [size_walk_off _ hlen fuel 1 idx hnz]
  by_cases hc : self.longest.length - idx ≤ fuel <;> simp [hc]

/-! ## The states `fresh k` and `taken k` -/

theorem two_pow_lt_UMOD {k : Nat} (hk : k ≤ 31) : 2 ^ k < UMOD := by
  unfold UMOD; exact Nat.pow_lt_pow_right (by omega) (by omega)

theorem fresh_length (k : Nat) : (fresh k).longest.length = 2 ^ (k + 1) - 1 := by
  simp [fresh]

theorem taken_length (k : Nat) : (taken k).longest.length = 2 ^ (k + 1) - 1 := by
  have : 2 ≤ 2 ^ (k + 1) := by
    calc 2 = 2 ^ 1 := rfl
      _ ≤ 2 ^ (k + 1) := Nat.pow_le_pow_right (by omega) (by omega)
  simp [taken]; omega

theorem fresh_nonzero (k : Nat) (j v : Nat) (h : (fresh k).longest[j]? = some v) : v ≠ 0 := by
  have hv : v = 2 ^ (k + 1) :=
    List.eq_of_mem_replicate (List.getElem?_mem h)
  have : 0 < 2 ^ (k + 1) := by positivity
  omega

theorem taken_nonzero (k : Nat) (j v : Nat) (hj : 1 ≤ j) (h : (taken k).longest[j]? = some v) :
    v ≠ 0 := by
  obtain ⟨j, rfl⟩ : ∃ j', j = j' + 1 := ⟨j - 1, by omega⟩
  simp only [taken, List.getElem?_cons_succ] at h
  have hv : v = 2 ^ (k + 1) :=
    List.eq_of_mem_replicate (List.getElem?_mem h)
  have : 0 < 2 ^ (k + 1) := by positivity
  omega

theorem fresh_eq_cons (k : Nat) :
    fresh k = { size := 2 ^ k,
                longest := 2 ^ (k + 1) :: List.replicate (2 ^ (k + 1) - 2) (2 ^ (k + 1)) } := by
  have : 2 ≤ 2 ^ (k + 1) := by
    calc 2 = 2 ^ 1 := rfl
      _ ≤ 2 ^ (k + 1) := Nat.pow_le_pow_right (by omega) (by omega)
  have h : 2 ^ (k + 1) - 1 = (2 ^ (k + 1) - 2) + 1 := by omega
  unfold fresh
  rw [h, List.replicate_succ]

theorem offset_ok_of_range {self : buddy} {o : Nat} (h : o < self.size) (hs : self.size ≤ UMOD) :
    offset_ok self (o : Int) = true := by
  have : toUnsigned (o : Int) = o := toUnsigned_ofNat (by omega)
  simp [offset_ok, this, h]

theorem leaf_index {o sz : Nat} (h : o < sz) (hs : o + sz ≤ UMOD) :
    (toUnsigned (o : Int) + sz + (UMOD - 1)) % UMOD = o + sz - 1 := by
  rw [toUnsigned_ofNat (by omega)]
  unfold UMOD at *
  omega

/-- On `fresh k` with `k ≥ 1`, `buddy_free` of any offset in range runs off the table. -/
theorem buddy_free_fresh {k o : Nat} (hk1 : 1 ≤ k) (hk : k ≤ 30) (ho : o < 2 ^ k) (fuel : Nat) :
    buddy_free fuel (fresh k) (o : Int)
      = if 2 ^ k - o ≤ fuel then .error .bounds else .error .fuel := by
  have h2 : 2 ≤ 2 ^ k := by
    calc 2 = 2 ^ 1 := rfl
      _ ≤ 2 ^ k := Nat.pow_le_pow_right (by omega) hk1
  have hsz : (fresh k).size = 2 ^ k := rfl
  have hlt := two_pow_lt_UMOD (k := k) (by omega)
  have hlt1 := two_pow_lt_UMOD (k := k + 1) (by omega)
  have hlen := fresh_length k
  rw [buddy_free_off (o + 2 ^ k - 1) (by rw [hlen]; omega)
    (offset_ok_of_range (by rw [hsz]; exact ho) (by rw [hsz]; omega))
    (by rw [hsz]; exact leaf_index ho (by unfold UMOD at *; omega)) (by omega)
    (fun j v _ h => fresh_nonzero k j v h) fuel]
  have : (fresh k).longest.length - (o + 2 ^ k - 1) = 2 ^ k - o := by
    rw [hlen, pow_succ]; omega
  rw [this]

/-- On `taken k` with `k ≥ 1`, `buddy_free` of any offset in range runs off the table. -/
theorem buddy_free_taken {k o : Nat} (hk1 : 1 ≤ k) (hk : k ≤ 30) (ho : o < 2 ^ k) (fuel : Nat) :
    buddy_free fuel (taken k) (o : Int)
      = if 2 ^ k - o ≤ fuel then .error .bounds else .error .fuel := by
  have h2 : 2 ≤ 2 ^ k := by
    calc 2 = 2 ^ 1 := rfl
      _ ≤ 2 ^ k := Nat.pow_le_pow_right (by omega) hk1
  have hsz : (taken k).size = 2 ^ k := rfl
  have hlt := two_pow_lt_UMOD (k := k) (by omega)
  have hlt1 := two_pow_lt_UMOD (k := k + 1) (by omega)
  have hlen := taken_length k
  rw [buddy_free_off (o + 2 ^ k - 1) (by rw [hlen]; omega)
    (offset_ok_of_range (by rw [hsz]; exact ho) (by rw [hsz]; omega))
    (by rw [hsz]; exact leaf_index ho (by unfold UMOD at *; omega)) (by omega)
    (fun j v hj h => taken_nonzero k j v (by omega) h) fuel]
  have : (taken k).longest.length - (o + 2 ^ k - 1) = 2 ^ k - o := by
    rw [hlen, pow_succ]; omega
  rw [this]

/-- On `taken k` with `k ≥ 1`, `buddy_size` of any offset in range runs off the table. -/
theorem buddy_size_taken {k o : Nat} (hk1 : 1 ≤ k) (hk : k ≤ 30) (ho : o < 2 ^ k) (fuel : Nat) :
    buddy_size fuel (taken k) (o : Int)
      = if 2 ^ k - o ≤ fuel then .error .bounds else .error .fuel := by
  have h2 : 2 ≤ 2 ^ k := by
    calc 2 = 2 ^ 1 := rfl
      _ ≤ 2 ^ k := Nat.pow_le_pow_right (by omega) hk1
  have hsz : (taken k).size = 2 ^ k := rfl
  have hlt := two_pow_lt_UMOD (k := k) (by omega)
  have hlt1 := two_pow_lt_UMOD (k := k + 1) (by omega)
  have hlen := taken_length k
  rw [buddy_size_off (o + 2 ^ k - 1) (by rw [hlen]; omega)
    (offset_ok_of_range (by rw [hsz]; exact ho) (by rw [hsz]; omega))
    (by rw [hsz]; exact leaf_index ho (by unfold UMOD at *; omega))
    (fun j v hj h => taken_nonzero k j v (by omega) h) fuel]
  have : (taken k).longest.length - (o + 2 ^ k - 1) = 2 ^ k - o := by
    rw [hlen, pow_succ]; omega
  rw [this]

/-- On `fresh k` with `k ≥ 1`, `buddy_size` of any offset in range runs off the table. -/
theorem buddy_size_fresh {k o : Nat} (hk1 : 1 ≤ k) (hk : k ≤ 30) (ho : o < 2 ^ k) (fuel : Nat) :
    buddy_size fuel (fresh k) (o : Int)
      = if 2 ^ k - o ≤ fuel then .error .bounds else .error .fuel := by
  have h2 : 2 ≤ 2 ^ k := by
    calc 2 = 2 ^ 1 := rfl
      _ ≤ 2 ^ k := Nat.pow_le_pow_right (by omega) hk1
  have hsz : (fresh k).size = 2 ^ k := rfl
  have hlt := two_pow_lt_UMOD (k := k) (by omega)
  have hlt1 := two_pow_lt_UMOD (k := k + 1) (by omega)
  have hlen := fresh_length k
  rw [buddy_size_off (o + 2 ^ k - 1) (by rw [hlen]; omega)
    (offset_ok_of_range (by rw [hsz]; exact ho) (by rw [hsz]; omega))
    (by rw [hsz]; exact leaf_index ho (by unfold UMOD at *; omega))
    (fun j v _ h => fresh_nonzero k j v h) fuel]
  have : (fresh k).longest.length - (o + 2 ^ k - 1) = 2 ^ k - o := by
    rw [hlen, pow_succ]; omega
  rw [this]

/-- What `buddy_alloc` does on `fresh k`. -/
theorem buddy_alloc_fresh (k fuel : Nat) (size : Int) :
    buddy_alloc fuel (fresh k) size
      = if 2 ^ (k + 1) < alloc_size size then .ok (-1, fresh k)
        else if 2 ^ k = alloc_size size then .ok (0, taken k)
        else .error .fuel := by
  rw [fresh_eq_cons, buddy_alloc_eq, offset_zero]
  rfl

/-- What `buddy_alloc` does on `taken k`. -/
theorem buddy_alloc_taken (k fuel : Nat) (size : Int) :
    buddy_alloc fuel (taken k) size
      = if 0 < alloc_size size then .ok (-1, taken k)
        else if 2 ^ k = alloc_size size then .ok (0, taken k)
        else .error .fuel := by
  unfold taken
  rw [buddy_alloc_eq, offset_zero]

theorem taken_zero_eq : taken 0 = { size := 1, longest := [0] } := by decide

theorem free_merge_root (fuel : Nat) (longest : List Nat) (node_size : Nat) :
    free_merge fuel longest node_size 0 = .ok longest := by
  cases fuel <;> simp [free_merge]

theorem buddy_free_taken_zero (fuel : Nat) :
    buddy_free fuel (taken 0) 0 = .ok { size := 1, longest := [1] } := by
  rw [taken_zero_eq]
  have hw : free_walk [0] fuel 1 0 = .ok (.found 0 1) := by
    cases fuel
    · rw [free_walk_zero]; rfl
    · rw [free_walk_succ]; rfl
  have hidx : (toUnsigned 0 + 1 + (UMOD - 1)) % UMOD = 0 := by decide
  have hok : offset_ok { size := 1, longest := [0] } 0 = true := by decide
  unfold buddy_free
  simp only [hok, hidx, hw, wr, free_merge_root]
  rfl

/-! ## The reachable states -/

/-- Every state reached from `buddy_new(C)` is `fresh k` with nothing live,
`taken k` with the one live offset `0`, or, for `C = 1` only, the one-cell
table holding `1` with nothing live. -/
theorem reachable_cases {C : Int} {self : buddy} {live : List Int}
    (h : Reachable C self live) :
    ∃ k, k ≤ 30 ∧ C = 2 ^ k ∧
      ((self = fresh k ∧ live = []) ∨ (self = taken k ∧ live = [0]) ∨
        (k = 0 ∧ self = { size := 1, longest := [1] } ∧ live = [])) := by
  induction h with
  | new hC hnew =>
    obtain ⟨k, hk, hCk, hs⟩ := buddy_new_some hC hnew
    exact ⟨k, hk, hCk, Or.inl ⟨hs, rfl⟩⟩
  | @alloc self self' live fuel size o _ _ hcall hne ih =>
    obtain ⟨k, hk, hCk, hcase⟩ := ih
    refine ⟨k, hk, hCk, ?_⟩
    rcases hcase with ⟨rfl, rfl⟩ | ⟨rfl, rfl⟩ | ⟨rfl, rfl, rfl⟩
    · rw [buddy_alloc_fresh] at hcall
      split_ifs at hcall with h1 h2
      · simp only [Except.ok.injEq, Prod.mk.injEq] at hcall
        exact absurd hcall.1.symm hne
      · simp only [Except.ok.injEq, Prod.mk.injEq] at hcall
        exact Or.inr (Or.inl ⟨hcall.2.symm, by rw [← hcall.1]⟩)
    · rw [buddy_alloc_taken] at hcall
      split_ifs at hcall with h1 h2
      · simp only [Except.ok.injEq, Prod.mk.injEq] at hcall
        exact absurd hcall.1.symm hne
      · have : 0 < 2 ^ k := by positivity
        omega
    · rw [buddy_alloc_eq] at hcall
      split_ifs at hcall with h1 h2
      · simp only [Except.ok.injEq, Prod.mk.injEq] at hcall
        exact absurd hcall.1.symm hne
      · rw [offset_zero] at hcall
        simp only [Except.ok.injEq, Prod.mk.injEq] at hcall
        exact Or.inr (Or.inl ⟨by rw [← hcall.2, taken_zero_eq], by rw [← hcall.1]⟩)
  | @alloc_fail self self' live fuel size _ _ hcall ih =>
    obtain ⟨k, hk, hCk, hcase⟩ := ih
    refine ⟨k, hk, hCk, ?_⟩
    rcases hcase with ⟨rfl, rfl⟩ | ⟨rfl, rfl⟩ | ⟨rfl, rfl, rfl⟩
    · rw [buddy_alloc_fresh] at hcall
      split_ifs at hcall with h1 h2
      · simp only [Except.ok.injEq, Prod.mk.injEq] at hcall
        exact Or.inl ⟨hcall.2.symm, rfl⟩
      · simp only [Except.ok.injEq, Prod.mk.injEq] at hcall
        exact absurd hcall.1 (by decide)
    · rw [buddy_alloc_taken] at hcall
      split_ifs at hcall with h1 h2
      · simp only [Except.ok.injEq, Prod.mk.injEq] at hcall
        exact Or.inr (Or.inl ⟨hcall.2.symm, rfl⟩)
      · have : 0 < 2 ^ k := by positivity
        omega
    · rw [buddy_alloc_eq] at hcall
      split_ifs at hcall with h1 h2
      · simp only [Except.ok.injEq, Prod.mk.injEq] at hcall
        exact Or.inr (Or.inr ⟨rfl, hcall.2.symm, rfl⟩)
      · rw [offset_zero] at hcall
        simp only [Except.ok.injEq, Prod.mk.injEq] at hcall
        exact absurd hcall.1 (by decide)
  | @free self self' live fuel o _ hmem hcall ih =>
    obtain ⟨k, hk, hCk, hcase⟩ := ih
    refine ⟨k, hk, hCk, ?_⟩
    rcases hcase with ⟨rfl, rfl⟩ | ⟨rfl, rfl⟩ | ⟨rfl, rfl, rfl⟩
    · simp at hmem
    · have ho : o = 0 := by simpa using hmem
      subst ho
      by_cases hk0 : k = 0
      · subst hk0
        rw [buddy_free_taken_zero] at hcall
        simp only [Except.ok.injEq] at hcall
        exact Or.inr (Or.inr ⟨rfl, hcall.symm, by simp⟩)
      · have := buddy_free_taken (k := k) (o := 0) (by omega) hk (by positivity) fuel
        simp only [Nat.cast_zero] at this
        rw [this] at hcall
        split_ifs at hcall
    · simp at hmem

/-! ## The normalised request size -/

theorem alloc_size_nonpos {size : Int} (h : size ≤ 0) : alloc_size size = 1 := by
  simp [alloc_size, h]

theorem alloc_size_ofNat {n : Nat} (h1 : 1 ≤ n) (h2 : n < UMOD) :
    alloc_size (n : Int) = if IS_POW n = true then n else fixsize n := by
  have hpos : ¬ ((n : Int) ≤ 0) := by omega
  unfold alloc_size
  rw [toUnsigned_ofNat h2]
  by_cases hp : IS_POW n = true <;> simp [hpos, hp]

theorem alloc_size_two_pow {j : Nat} (hj : j ≤ 31) : alloc_size ((2 : Int) ^ j) = 2 ^ j := by
  have hcast : ((2 : Int) ^ j) = ((2 ^ j : Nat) : Int) := by push_cast; rfl
  rw [hcast, alloc_size_ofNat Nat.one_le_two_pow (two_pow_lt_UMOD hj)]
  simp [IS_POW_two_pow]

/-- On `1 ≤ n ≤ 2 ^ 30` the normalised size is the least power of two that is
at least `n`. -/
theorem alloc_size_least {n : Nat} (h1 : 1 ≤ n) (h2 : n ≤ 2 ^ 30) :
    ∃ k, alloc_size (n : Int) = 2 ^ k ∧ n ≤ 2 ^ k ∧ ∀ j, n ≤ 2 ^ j → k ≤ j := by
  have hU : n < UMOD := by unfold UMOD; omega
  rw [alloc_size_ofNat h1 hU]
  by_cases hp : IS_POW n = true
  · obtain ⟨k, rfl⟩ := (IS_POW_iff n h1).1 hp
    refine ⟨k, by simp [hp], le_refl _, fun j hj => ?_⟩
    exact (Nat.pow_le_pow_iff_right (by omega)).1 hj
  · obtain ⟨k, hlo, hhi⟩ := bracket n (by omega)
    have hne : n ≠ 2 ^ k := fun e => hp ((IS_POW_iff n h1).2 ⟨k, e⟩)
    have hk : k ≤ 29 := by
      by_contra hgt
      have : 2 ^ 30 ≤ 2 ^ k := Nat.pow_le_pow_right (by omega) (by omega)
      omega
    refine ⟨k + 1, by simp [hp, fixsize_eq (by omega) hlo hhi], by omega, fun j hj => ?_⟩
    have : 2 ^ k < 2 ^ j := by omega
    have := (Nat.pow_lt_pow_iff_right (by omega : 1 < 2)).1 this
    omega

/-! ## The claims -/

/-- C1 (leftmost-fit placement), for the block sizes below the capacity: on
the allocator built by `buddy_new (2 ^ k)`, the first call
`buddy_alloc (2 ^ j)` with `j < k` returns nothing, whatever the iteration
budget.  The descent loop of lines 86-91 leaves `node_size` at the capacity
and `index` at `0`, so its exit test `node_size != size` stays true. -/
theorem alloc_below_capacity_never_returns (k j : Nat) (hk : k ≤ 30) (hj : j < k)
    (self : buddy) (hnew : buddy_new ((2 : Int) ^ k) = some self) (fuel : Nat) :
    buddy_alloc fuel self ((2 : Int) ^ j) = Except.error Fault.fuel := by
  rw [buddy_new_two_pow k hk] at hnew
  obtain rfl := Option.some.inj hnew
  rw [buddy_alloc_fresh, alloc_size_two_pow (by omega)]
  have h1 : ¬ (2 ^ (k + 1) < 2 ^ j) := by
    have : 2 ^ j ≤ 2 ^ (k + 1) := Nat.pow_le_pow_right (by omega) (by omega)
    omega
  have h2 : ¬ (2 ^ k = 2 ^ j) := by
    have : 2 ^ j < 2 ^ k := Nat.pow_lt_pow_right (by omega) hj
    omega
  simp [h1, h2]

/-- The case `C = 8`, `s = 4` of C1: `buddy_alloc(4)` on `buddy_new(8)`. -/
theorem alloc_below_capacity_never_returns_witness :
    buddy_new ((2 : Int) ^ 3) = some (fresh 3) ∧
      buddy_alloc 1000 (fresh 3) ((2 : Int) ^ 2) = Except.error Fault.fuel :=
  ⟨buddy_new_two_pow 3 (by decide),
    alloc_below_capacity_never_returns 3 2 (by decide) (by decide) (fresh 3)
      (buddy_new_two_pow 3 (by decide)) 1000⟩

/-- C2 (round trip), for every capacity `2 ^ k ≥ 2`: on the allocator built
by `buddy_new (2 ^ k)`, `buddy_alloc (2 ^ k)` returns offset `0`, and the
following `buddy_free (0)` reads `longest` past its last cell (given at least
`2 ^ k` iterations) instead of returning with `longest[0]` equal to the
capacity: its walk goes from the leaf towards the end of the table, as
`PARENT(index)` is `index + 1`. -/
theorem round_trip_runs_off_table (k : Nat) (hk1 : 1 ≤ k) (hk : k ≤ 30)
    (self : buddy) (hnew : buddy_new ((2 : Int) ^ k) = some self)
    (fuel fuel' : Nat) (hfuel : 2 ^ k ≤ fuel') :
    ∃ self', buddy_alloc fuel self ((2 : Int) ^ k) = Except.ok (0, self') ∧
      buddy_free fuel' self' 0 = Except.error Fault.bounds := by
  rw [buddy_new_two_pow k hk] at hnew
  obtain rfl := Option.some.inj hnew
  refine ⟨taken k, ?_, ?_⟩
  · rw [buddy_alloc_fresh, alloc_size_two_pow (by omega)]
    have h1 : ¬ (2 ^ (k + 1) < 2 ^ k) := by
      have : 2 ^ k ≤ 2 ^ (k + 1) := Nat.pow_le_pow_right (by omega) (by omega)
      omega
    simp [h1]
  · have := buddy_free_taken (k := k) (o := 0) hk1 hk (by positivity) fuel'
    simp only [Nat.cast_zero] at this
    rw [this]
    simp [hfuel]

/-- The case `C = 2`, `s = 2` of C2. -/
theorem round_trip_runs_off_table_witness :
    ∃ self', buddy_alloc 5 (fresh 1) ((2 : Int) ^ 1) = Except.ok (0, self') ∧
      buddy_free 5 self' 0 = Except.error Fault.bounds :=
  round_trip_runs_off_table 1 (by decide) (by decide) (fresh 1)
    (buddy_new_two_pow 1 (by decide)) 5 5 (by decide)

/-- C3 (coalescing), for every capacity `2 ^ k ≥ 2`: the first call of the
scenario, `buddy_alloc (C / 2)` on the allocator built by `buddy_new (C)`,
returns nothing, whatever the iteration budget, so that no later step of the
scenario is reached. -/
theorem coalescing_first_alloc_never_returns (k : Nat) (hk1 : 1 ≤ k) (hk : k ≤ 30)
    (self : buddy) (hnew : buddy_new ((2 : Int) ^ k) = some self) (fuel : Nat) :
    buddy_alloc fuel self ((2 : Int) ^ k / 2) = Except.error Fault.fuel := by
  obtain ⟨j, rfl⟩ : ∃ j, k = j + 1 := ⟨k - 1, by omega⟩
  have hdiv : ((2 : Int) ^ (j + 1) / 2) = 2 ^ j := by
    rw [pow_succ]; exact Int.mul_ediv_cancel _ (by decide)
  rw [buddy_new_two_pow (j + 1) hk] at hnew
  obtain rfl := Option.some.inj hnew
  rw [hdiv, buddy_alloc_fresh, alloc_size_two_pow (by omega)]
  have h1 : ¬ (2 ^ (j + 1 + 1) < 2 ^ j) := by
    have : 2 ^ j ≤ 2 ^ (j + 1 + 1) := Nat.pow_le_pow_right (by omega) (by omega)
    omega
  have h2 : ¬ (2 ^ (j + 1) = 2 ^ j) := by
    have : 2 ^ j < 2 ^ (j + 1) := Nat.pow_lt_pow_right (by omega) (by omega)
    omega
  simp [h1, h2]

/-- The case `C = 8` of C3. -/
theorem coalescing_first_alloc_never_returns_witness :
    buddy_alloc 1000 (fresh 3) ((2 : Int) ^ 3 / 2) = Except.error Fault.fuel :=
  coalescing_first_alloc_never_returns 3 (by decide) (by decide) (fresh 3)
    (buddy_new_two_pow 3 (by decide)) 1000

/-- C5 (block-size query), for every capacity `2 ^ k ≥ 2` and every request
that is normalised to the capacity: `buddy_alloc` returns offset `0`, and
`buddy_size (0)` then reads `longest` past its last cell (given at least
`2 ^ k` iterations) instead of returning the rounded-up size. -/
theorem size_query_runs_off_table (k : Nat) (hk1 : 1 ≤ k) (hk : k ≤ 30) (s : Int)
    (hs : alloc_size s = 2 ^ k)
    (self : buddy) (hnew : buddy_new ((2 : Int) ^ k) = some self)
    (fuel fuel' : Nat) (hfuel : 2 ^ k ≤ fuel') :
    ∃ self', buddy_alloc fuel self s = Except.ok (0, self') ∧
      buddy_size fuel' self' 0 = Except.error Fault.bounds := by
  rw [buddy_new_two_pow k hk] at hnew
  obtain rfl := Option.some.inj hnew
  refine ⟨taken k, ?_, ?_⟩
  · rw [buddy_alloc_fresh, hs]
    have h1 : ¬ (2 ^ (k + 1) < 2 ^ k) := by
      have : 2 ^ k ≤ 2 ^ (k + 1) := Nat.pow_le_pow_right (by omega) (by omega)
      omega
    simp [h1]
  · have := buddy_size_taken (k := k) (o := 0) hk1 hk (by positivity) fuel'
    simp only [Nat.cast_zero] at this
    rw [this]
    simp [hfuel]

/-- The case `C = 8`, `s = 5` of C5. -/
theorem size_query_runs_off_table_witness :
    ∃ self', buddy_alloc 20 (fresh 3) 5 = Except.ok (0, self') ∧
      buddy_size 20 self' 0 = Except.error Fault.bounds :=
  size_query_runs_off_table 3 (by decide) (by decide) 5 (by decide) (fresh 3)
    (buddy_new_two_pow 3 (by decide)) 20 20 (by decide)

/-- C6 (construction validation): for every `int` capacity, `buddy_new`
returns `NULL` exactly when the capacity is below `1` or is not a power of
two; it succeeds for `1` and `64` and returns `NULL` for `0`, `-5` and `100`. -/
theorem buddy_new_null_iff (capacity : Int) (_hc : isInt capacity) :
    (buddy_new capacity = none ↔ capacity < 1 ∨ ¬ ∃ k : Nat, capacity = 2 ^ k) ∧
      (buddy_new 1).isSome = true ∧ (buddy_new 64).isSome = true ∧
      buddy_new 0 = none ∧ buddy_new (-5) = none ∧ buddy_new 100 = none := by
  refine ⟨?_, by decide, by decide, by decide, by decide, by decide⟩
  have hguard : buddy_new capacity = none ↔ capacity < 1 ∨ IS_POW capacity.toNat = false := by
    unfold buddy_new
    by_cases h1 : capacity < 1
    · simp [h1]
    · by_cases hp : IS_POW capacity.toNat = true
      · simp [h1, hp]
      · simp [h1, hp]
  rw [hguard]
  by_cases h1 : capacity < 1
  · simp [h1]
  · have hpow : IS_POW capacity.toNat = true ↔ ∃ k : Nat, capacity = 2 ^ k := by
      rw [IS_POW_iff _ (by omega)]
      constructor
      · rintro ⟨k, hk⟩
        refine ⟨k, ?_⟩
        have : capacity = ((capacity.toNat : Nat) : Int) := by omega
        rw [this, hk]; push_cast; rfl
      · rintro ⟨k, hk⟩
        refine ⟨k, ?_⟩
        rw [hk]
        have hcast : ((2 : Int) ^ k) = ((2 ^ k : Nat) : Int) := by push_cast; rfl
        rw [hcast]; exact Int.toNat_ofNat _
    constructor
    · rintro (h | h)
      · exact absurd h h1
      · right
        intro hex
        rw [hpow.2 hex] at h
        exact Bool.noConfusion h
    · rintro (h | h)
      · exact absurd h h1
      · right
        cases hb : IS_POW capacity.toNat with
        | false => rfl
        | true => exact absurd (hpow.1 hb) h

/-- The capacity `100` of C6: `buddy_new(100)` returns `NULL`, and `100` is not
a power of two. -/
theorem buddy_new_null_iff_witness :
    isInt 100 ∧ (buddy_new 100 = none ↔ (100 : Int) < 1 ∨ ¬ ∃ k : Nat, (100 : Int) = 2 ^ k) :=
  ⟨by unfold isInt; decide, (buddy_new_null_iff 100 (by unfold isInt; decide)).1⟩

/-- C7 (initial state): the allocator built by `buddy_new (2 ^ k)` has
`size = 2 ^ k` and `2 * 2 ^ k - 1` cells, and every cell, the root and the
leaves included, holds `2 * 2 ^ k`, twice the capacity, not the span of its
node: the halving `node_size >> 1;` of line 60 drops its result. -/
theorem buddy_new_cells_hold_twice_capacity (k : Nat) (hk : k ≤ 30) (self : buddy)
    (hnew : buddy_new ((2 : Int) ^ k) = some self) :
    self.size = 2 ^ k ∧ self.longest.length = 2 * 2 ^ k - 1 ∧
      ∀ i, i < 2 * 2 ^ k - 1 → self.longest[i]? = some (2 * 2 ^ k) := by
  rw [buddy_new_two_pow k hk] at hnew
  obtain rfl := Option.some.inj hnew
  have h2 : 2 ^ (k + 1) = 2 * 2 ^ k := by rw [pow_succ]; omega
  refine ⟨rfl, by rw [fresh_length, h2], fun i hi => ?_⟩
  simp only [fresh, h2]
  rw [List.getElem?_replicate]
  simp [hi]

/-- The capacity `1` of C7: the root cell of `buddy_new(1)` holds `2`. -/
theorem buddy_new_cells_hold_twice_capacity_witness :
    buddy_new ((2 : Int) ^ 0) = some (fresh 0) ∧ (fresh 0).longest[0]? = some (2 * 2 ^ 0) :=
  ⟨buddy_new_two_pow 0 (by decide),
    (buddy_new_cells_hold_twice_capacity 0 (by decide) (fresh 0)
      (buddy_new_two_pow 0 (by decide))).2.2 0 (by decide)⟩

/-- C8 (out-of-memory is atomic): in every state whose table has a root cell
and for every request, if `longest[0]` is smaller than the normalised request
size then `buddy_alloc` returns `-1` and the state after the call, the field
`size` and every cell of `longest`, is the state before it. -/
theorem buddy_alloc_out_of_memory (fuel : Nat) (self : buddy) (size : Int) (root : Nat)
    (hroot : self.longest[0]? = some root) (hlt : root < alloc_size size) :
    buddy_alloc fuel self size = Except.ok (-1, self) := by
  unfold buddy_alloc rd
  simp [hroot, hlt]

/-- A request of `1` after `buddy_alloc(8)` on `buddy_new(8)`: the root cell
holds `0`. -/
theorem buddy_alloc_out_of_memory_witness :
    (taken 3).longest[0]? = some 0 ∧ 0 < alloc_size 1 ∧
      buddy_alloc 10 (taken 3) 1 = Except.ok (-1, taken 3) :=
  ⟨by decide, by decide, buddy_alloc_out_of_memory 10 (taken 3) 1 0 (by decide) (by decide)⟩

/-- C9 (release of an offset that is not live), for every capacity
`2 ^ k ≥ 2`: on the allocator built by `buddy_new (2 ^ k)`, where no block is
live, `buddy_free` of any offset `o` in `[0, 2 ^ k)` reads `longest` past its
last cell (given at least `2 ^ k - o` iterations); it does not return with
the table unchanged. -/
theorem free_of_offset_not_live_runs_off_table (k o : Nat) (hk1 : 1 ≤ k) (hk : k ≤ 30)
    (ho : o < 2 ^ k) (self : buddy) (hnew : buddy_new ((2 : Int) ^ k) = some self)
    (fuel : Nat) (hfuel : 2 ^ k - o ≤ fuel) :
    Reachable ((2 : Int) ^ k) self [] ∧
      buddy_free fuel self (o : Int) = Except.error Fault.bounds := by
  have hint : isInt ((2 : Int) ^ k) := by
    have h1 : (0 : Int) < 2 ^ k := by positivity
    have h2 : (2 : Int) ^ k ≤ 2 ^ 30 := pow_le_pow_right₀ (by decide) hk
    unfold isInt
    constructor <;> omega
  refine ⟨Reachable.new hint hnew, ?_⟩
  rw [buddy_new_two_pow k hk] at hnew
  obtain rfl := Option.some.inj hnew
  rw [buddy_free_fresh hk1 hk ho]
  simp [hfuel]

/-- The case `C = 2`, offset `0` of C9. -/
theorem free_of_offset_not_live_runs_off_table_witness :
    Reachable ((2 : Int) ^ 1) (fresh 1) [] ∧
      buddy_free 2 (fresh 1) ((0 : Nat) : Int) = Except.error Fault.bounds :=
  free_of_offset_not_live_runs_off_table 1 0 (by decide) (by decide) (by decide) (fresh 1)
    (buddy_new_two_pow 1 (by decide)) 2 (by decide)

/-- C10 (size normalisation): for every `int` request `size ≤ 2 ^ 30`, the
size `buddy_alloc` works with is `1` when `size ≤ 0`, is `size` when `size`
is a power of two, is otherwise the least power of two above `size`, and is
in every case the least power of two that is at least `max size 1`. -/
theorem alloc_size_normalizes (size : Int) (hint : isInt size) (hle : size ≤ 2 ^ 30) :
    (size ≤ 0 → alloc_size size = 1) ∧
    ((∃ k : Nat, size = 2 ^ k) → (alloc_size size : Int) = size) ∧
    (0 < size → (¬ ∃ k : Nat, size = 2 ^ k) →
      ∃ k : Nat, alloc_size size = 2 ^ k ∧ size < 2 ^ k ∧
        ∀ j : Nat, size < 2 ^ j → (2 : Int) ^ k ≤ 2 ^ j) ∧
    (∃ k : Nat, alloc_size size = 2 ^ k ∧ max size 1 ≤ 2 ^ k ∧
        ∀ j : Nat, max size 1 ≤ 2 ^ j → (2 : Int) ^ k ≤ 2 ^ j) := by
  have hpowle : ∀ a b : Nat, a ≤ b → (2 : Int) ^ a ≤ 2 ^ b :=
    fun a b hab => pow_le_pow_right₀ (by decide) hab
  by_cases hpos : size ≤ 0
  · refine ⟨fun _ => alloc_size_nonpos hpos, ?_, fun h => absurd hpos (by omega), ?_⟩
    · rintro ⟨k, hk⟩
      have : (0 : Int) < 2 ^ k := by positivity
      omega
    · refine ⟨0, by rw [alloc_size_nonpos hpos]; rfl, by simp; omega, fun j _ => hpowle 0 j (by omega)⟩
  · obtain ⟨n, rfl⟩ : ∃ n : Nat, size = (n : Int) := ⟨size.toNat, by omega⟩
    have h1 : 1 ≤ n := by omega
    have h2 : n ≤ 2 ^ 30 := by exact_mod_cast hle
    obtain ⟨k, hk, hnk, hmin⟩ := alloc_size_least h1 h2
    have hcastle : ∀ j : Nat, (n : Int) ≤ 2 ^ j → n ≤ 2 ^ j := fun j hj => by exact_mod_cast hj
    refine ⟨fun h => absurd h hpos, ?_, ?_, ?_⟩
    · rintro ⟨j, hj⟩
      have hnj : n = 2 ^ j := by exact_mod_cast hj
      rw [hj]
      rw [alloc_size_two_pow (j := j)]
      · push_cast; rfl
      · by_contra hgt
        have : 2 ^ 31 ≤ 2 ^ j := Nat.pow_le_pow_right (by omega) (by omega)
        omega
    · intro _ hnot
      have hne : n ≠ 2 ^ k := fun e => hnot ⟨k, by rw [e]; push_cast; rfl⟩
      refine ⟨k, hk, ?_, fun j hj => hpowle k j (hmin j ?_)⟩
      · have : n < 2 ^ k := by omega
        exact_mod_cast this
      · have : n < 2 ^ j := by exact_mod_cast hj
        omega
    · refine ⟨k, hk, ?_, fun j hj => hpowle k j (hmin j (hcastle j ?_))⟩
      · have : (n : Int) ≤ 2 ^ k := by exact_mod_cast hnk
        simp only [max_le_iff]
        exact ⟨this, by have : (0 : Int) < 2 ^ k := by positivity
                        omega⟩
      · exact le_trans (le_max_left _ _) hj

/-- The request `5` of C10 is normalised to `8`. -/
theorem alloc_size_normalizes_witness :
    isInt 5 ∧ (5 : Int) ≤ 2 ^ 30 ∧
      ∃ k : Nat, alloc_size 5 = 2 ^ k ∧ max (5 : Int) 1 ≤ 2 ^ k ∧
        ∀ j : Nat, max (5 : Int) 1 ≤ 2 ^ j → (2 : Int) ^ k ≤ 2 ^ j :=
  ⟨by unfold isInt; decide, by decide,
    (alloc_size_normalizes 5 (by unfold isInt; decide) (by decide)).2.2.2⟩

/-- C11 (returned offsets are valid blocks): in every state reached from
`buddy_new (C)` and for every request, when `buddy_alloc` returns an offset
`o` other than `-1`, with `n` the normalised request size, `n` divides `o`,
`0 ≤ o`, `o + n ≤ C`, and the cell of the target node, the node at which the
descent loop stops, holds `0` after the call. -/
theorem alloc_returns_valid_block (C : Int) (self : buddy) (live : List Int)
    (h : Reachable C self live) (fuel : Nat) (size o : Int) (self' : buddy)
    (_hs : isInt size) (hcall : buddy_alloc fuel self size = Except.ok (o, self'))
    (hne : o ≠ -1) :
    ((alloc_size size : Int) ∣ o) ∧ 0 ≤ o ∧ o + (alloc_size size : Int) ≤ C ∧
      ∃ index node_size,
        alloc_descend self.longest (alloc_size size) fuel self.size 0
          = Except.ok (index, node_size) ∧
        self'.longest[index]? = some 0 := by
  obtain ⟨k, hk, rfl, hcase⟩ := reachable_cases h
  have key : ∀ (sz v : Nat) (rest : List Nat), sz = 2 ^ k →
      buddy_alloc fuel { size := sz, longest := v :: rest } size = Except.ok (o, self') →
      ((alloc_size size : Int) ∣ o) ∧ 0 ≤ o ∧ o + (alloc_size size : Int) ≤ (2 : Int) ^ k ∧
        ∃ index node_size,
          alloc_descend (v :: rest) (alloc_size size) fuel sz 0
            = Except.ok (index, node_size) ∧
          self'.longest[index]? = some 0 := by
    intro sz v rest hsz hc
    rw [buddy_alloc_eq] at hc
    split_ifs at hc with h1 h2
    · simp only [Except.ok.injEq, Prod.mk.injEq] at hc
      exact absurd hc.1.symm hne
    · rw [offset_zero] at hc
      simp only [Except.ok.injEq, Prod.mk.injEq] at hc
      obtain ⟨ho, hs'⟩ := hc
      subst ho
      refine ⟨dvd_zero _, le_refl _, ?_, 0, sz, ?_, ?_⟩
      · rw [← h2, hsz]; push_cast; omega
      · rw [alloc_descend_root]; simp [h2]
      · rw [← hs']; simp
  rcases hcase with ⟨rfl, _⟩ | ⟨rfl, _⟩ | ⟨_, rfl, _⟩
  · rw [fresh_eq_cons] at hcall ⊢
    exact key _ _ _ rfl hcall
  · exact key _ _ _ rfl hcall
  · subst k
    exact key 1 1 [] rfl hcall

/-- The request `8` on `buddy_new(8)`: offset `0`, and the root cell holds `0`. -/
theorem alloc_returns_valid_block_witness :
    Reachable 8 (fresh 3) [] ∧ isInt 8 ∧
      buddy_alloc 0 (fresh 3) 8 = Except.ok (0, taken 3) ∧ (0 : Int) ≠ -1 ∧
      (((alloc_size 8 : Int) ∣ 0) ∧ (0 : Int) ≤ 0 ∧ 0 + (alloc_size 8 : Int) ≤ 8 ∧
        ∃ index node_size,
          alloc_descend (fresh 3).longest (alloc_size 8) 0 (fresh 3).size 0
            = Except.ok (index, node_size) ∧
          (taken 3).longest[index]? = some 0) :=
  have hr : Reachable 8 (fresh 3) [] :=
    Reachable.new (by unfold isInt; decide) (buddy_new_two_pow 3 (by decide))
  have hc : buddy_alloc 0 (fresh 3) 8 = Except.ok (0, taken 3) := by
    rw [buddy_alloc_fresh]; rfl
  ⟨hr, by unfold isInt; decide, hc, by decide,
    alloc_returns_valid_block 8 (fresh 3) [] hr 0 8 0 (taken 3) (by unfold isInt; decide) hc
      (by decide)⟩

/-- C12 (capacity is never over-committed), for the one-call sequence that
asks for twice the capacity: on the allocator built by `buddy_new (2 ^ k)`,
`buddy_alloc (2 * 2 ^ k)` does not return `-1`; it returns nothing, whatever
the iteration budget.  The root cell holds `2 * 2 ^ k`, so the test of line
83 lets the request through, and the descent loop then never ends. -/
theorem oversized_request_never_returns (k : Nat) (hk : k ≤ 29) (self : buddy)
    (hnew : buddy_new ((2 : Int) ^ k) = some self) (fuel : Nat) :
    buddy_alloc fuel self ((2 : Int) ^ (k + 1)) = Except.error Fault.fuel := by
  rw [buddy_new_two_pow k (by omega)] at hnew
  obtain rfl := Option.some.inj hnew
  rw [buddy_alloc_fresh, alloc_size_two_pow (by omega)]
  have h2 : ¬ (2 ^ k = 2 ^ (k + 1)) := by
    have : 2 ^ k < 2 ^ (k + 1) := Nat.pow_lt_pow_right (by omega) (by omega)
    omega
  simp [h2]

/-- The case `C = 2` of C12: the single call `buddy_alloc(4)`. -/
theorem oversized_request_never_returns_witness :
    buddy_new ((2 : Int) ^ 1) = some (fresh 1) ∧
      buddy_alloc 1000 (fresh 1) ((2 : Int) ^ (1 + 1)) = Except.error Fault.fuel :=
  ⟨buddy_new_two_pow 1 (by decide),
    oversized_request_never_returns 1 (by decide) (fresh 1)
      (buddy_new_two_pow 1 (by decide)) 1000⟩

/-- C13 (allocation terminates): in every state with a root cell, a request
that the test of line 83 lets through and whose normalised size differs from
the field `size` makes `buddy_alloc` return nothing, whatever the iteration
budget: the descent loop does not halve `node_size`, so no bound on its
iterations exists. -/
theorem descent_never_ends (self : buddy) (size : Int) (root : Nat)
    (hroot : self.longest[0]? = some root) (hfit : ¬ root < alloc_size size)
    (hne : self.size ≠ alloc_size size) (fuel : Nat) :
    buddy_alloc fuel self size = Except.error Fault.fuel := by
  obtain ⟨sz, longest⟩ := self
  cases longest with
  | nil => simp at hroot
  | cons v rest =>
    simp only [List.getElem?_cons_zero, Option.some.injEq] at hroot
    subst hroot
    rw [buddy_alloc_eq]
    simp only [] at hne
    simp [hfit, hne]

/-- The request `2` on `buddy_new(8)`, a state reached from `buddy_new(8)`. -/
theorem descent_never_ends_witness :
    Reachable 8 (fresh 3) [] ∧ (fresh 3).longest[0]? = some 16 ∧ ¬ 16 < alloc_size 2 ∧
      (fresh 3).size ≠ alloc_size 2 ∧
      buddy_alloc 1000 (fresh 3) 2 = Except.error Fault.fuel :=
  ⟨Reachable.new (by unfold isInt; decide) (buddy_new_two_pow 3 (by decide)),
    by decide, by decide, by decide,
    descent_never_ends (fresh 3) 2 16 (by decide) (by decide) (by decide) 1000⟩

/-- C14 (out-of-range offsets are rejected): for every state, the empty table
included, and every `int` offset with `offset < 0` or `offset ≥ size`, both
`buddy_free` and `buddy_size` stop at their `assert`, before any access to
`longest`. -/
theorem out_of_range_offset_asserts (fuel : Nat) (self : buddy) (offset : Int)
    (hint : isInt offset) (hout : offset < 0 ∨ (self.size : Int) ≤ offset) :
    buddy_free fuel self offset = Except.error Fault.assertion ∧
      buddy_size fuel self offset = Except.error Fault.assertion := by
  have hok : offset_ok self offset = false := by
    unfold offset_ok
    rcases hout with hneg | hge
    · have : ¬ (offset ≥ 0) := by omega
      simp [this]
    · by_cases h0 : offset ≥ 0
      · have hu : toUnsigned offset = offset.toNat := by
          unfold toUnsigned
          have := hint.2
          rw [Int.emod_eq_of_lt (by omega) (by omega)]
        have : ¬ (toUnsigned offset < self.size) := by
          rw [hu]; omega
        simp [this]
      · simp [h0]
  constructor
  · unfold buddy_free; simp [hok]
  · unfold buddy_size; simp [hok]

/-- The offsets `8` and `-1` on a table of capacity `8`. -/
theorem out_of_range_offset_asserts_witness :
    isInt 8 ∧ ((8 : Int) < 0 ∨ (((fresh 3).size : Nat) : Int) ≤ 8) ∧
      (buddy_free 10 (fresh 3) 8 = Except.error Fault.assertion ∧
        buddy_size 10 (fresh 3) 8 = Except.error Fault.assertion) :=
  ⟨by unfold isInt; decide, Or.inr (by decide),
    out_of_range_offset_asserts 10 (fresh 3) 8 (by unfold isInt; decide) (Or.inr (by decide))⟩

/-- C15 (implicit-tree index arithmetic): for every index `i < 2 ^ 29`,
`LEFT_SUB(i)` is `4 * i`, `RIGHT_SUB(i)` is `8 * i` and `PARENT(i)` is `i + 1`,
not `2 * i + 1`, `2 * i + 2` and `(i - 1) / 2`; so `PARENT(LEFT_SUB(i))` is
`4 * i + 1` and `PARENT(RIGHT_SUB(i))` is `8 * i + 1`, not `i`. -/
theorem tree_index_arithmetic (i : Nat) (hi : i < 2 ^ 29) :
    LEFT_SUB i = 4 * i ∧ RIGHT_SUB i = 8 * i ∧ PARENT i = i + 1 ∧
      PARENT (LEFT_SUB i) = 4 * i + 1 ∧ PARENT (RIGHT_SUB i) = 8 * i + 1 := by
  have hl : LEFT_SUB i = 4 * i := by
    unfold LEFT_SUB UMOD
    rw [Nat.shiftLeft_eq]
    omega
  have hr : RIGHT_SUB i = 8 * i := by
    unfold RIGHT_SUB UMOD
    rw [Nat.shiftLeft_eq]
    omega
  have hp : ∀ j, j < 2 ^ 32 - 1 → PARENT j = j + 1 := by
    intro j hj
    rw [PARENT_eq]
    unfold UMOD
    omega
  refine ⟨hl, hr, hp i (by omega), ?_, ?_⟩
  · rw [hl]; exact hp _ (by omega)
  · rw [hr]; exact hp _ (by omega)

/-- The index `1` of C15: its children are computed as `4` and `8`, its
parent as `2`. -/
theorem tree_index_arithmetic_witness :
    LEFT_SUB 1 = 4 ∧ RIGHT_SUB 1 = 8 ∧ PARENT 1 = 2 ∧
      PARENT (LEFT_SUB 1) = 5 ∧ PARENT (RIGHT_SUB 1) = 9 :=
  tree_index_arithmetic 1 (by decide)

/-- C17 (node-value invariant): in every state reached from `buddy_new (C)`
with `C ≥ 2`, every cell but the root, each leaf among them, holds `2 * C`:
more than the span of any node, and neither `0` nor `1`. -/
theorem reachable_cells_hold_twice_capacity (C : Int) (self : buddy) (live : List Int)
    (h : Reachable C self live) (hC : 2 ≤ C) (i : Nat) (h1 : 1 ≤ i)
    (hi : (i : Int) < 2 * C - 1) :
    ∃ v : Nat, self.longest[i]? = some v ∧ (v : Int) = 2 * C := by
  obtain ⟨k, hk, rfl, hcase⟩ := reachable_cases h
  have hk1 : 1 ≤ k := by
    by_contra hk0
    have : k = 0 := by omega
    subst this
    norm_num at hC
  have hi' : i < 2 * 2 ^ k - 1 := by
    have : (i : Int) < ((2 * 2 ^ k - 1 : Nat) : Int) := by
      have hpos : 1 ≤ 2 * 2 ^ k := by
        have : 0 < 2 ^ k := by positivity
        omega
      rw [Nat.cast_sub hpos]; push_cast; exact hi
    exact_mod_cast this
  have h2 : 2 ^ (k + 1) = 2 * 2 ^ k := by rw [pow_succ]; omega
  obtain ⟨j, rfl⟩ : ∃ j, i = j + 1 := ⟨i - 1, by omega⟩
  refine ⟨2 ^ (k + 1), ?_, by rw [h2]; push_cast; rfl⟩
  rcases hcase with ⟨rfl, _⟩ | ⟨rfl, _⟩ | ⟨hk0, _, _⟩
  · rw [fresh_eq_cons]
    simp only [List.getElem?_cons_succ]
    rw [List.getElem?_replicate]
    have : j < 2 ^ (k + 1) - 2 := by omega
    simp [this]
  · simp only [taken, List.getElem?_cons_succ]
    rw [List.getElem?_replicate]
    have : j < 2 ^ (k + 1) - 2 := by omega
    simp [this]
  · omega

/-- The leaf at index `1` of `buddy_new(2)` holds `4`. -/
theorem reachable_cells_hold_twice_capacity_witness :
    Reachable 2 (fresh 1) [] ∧ (2 : Int) ≤ 2 ∧ 1 ≤ 1 ∧ ((1 : Nat) : Int) < 2 * 2 - 1 ∧
      ∃ v : Nat, (fresh 1).longest[1]? = some v ∧ (v : Int) = 2 * 2 :=
  have hr : Reachable 2 (fresh 1) [] :=
    Reachable.new (by unfold isInt; decide) (buddy_new_two_pow 1 (by decide))
  ⟨hr, by decide, by decide, by decide,
    reachable_cells_hold_twice_capacity 2 (fresh 1) [] hr (by decide) 1 (by decide)
      (by decide)⟩

/-- C18 (index safety of the upward walks): in every state reached from
`buddy_new (C)` with `C ≥ 2` and for every offset in `[0, C)`, the walk of
`buddy_free` and the walk of `buddy_size`, given `C` iterations, both read
`longest` at an index past the last cell, `2 * C - 2`. -/
theorem walks_leave_table (C : Int) (self : buddy) (live : List Int)
    (h : Reachable C self live) (hC : 2 ≤ C) (o : Nat) (ho : (o : Int) < C)
    (fuel : Nat) (hfuel : C ≤ (fuel : Int)) :
    buddy_free fuel self (o : Int) = Except.error Fault.bounds ∧
      buddy_size fuel self (o : Int) = Except.error Fault.bounds := by
  obtain ⟨k, hk, rfl, hcase⟩ := reachable_cases h
  have hk1 : 1 ≤ k := by
    by_contra hk0
    have : k = 0 := by omega
    subst this
    norm_num at hC
  have ho' : o < 2 ^ k := by exact_mod_cast ho
  have hf' : 2 ^ k ≤ fuel := by exact_mod_cast hfuel
  have hle : 2 ^ k - o ≤ fuel := by omega
  rcases hcase with ⟨rfl, _⟩ | ⟨rfl, _⟩ | ⟨hk0, _, _⟩
  · rw [buddy_free_fresh hk1 hk ho', buddy_size_fresh hk1 hk ho']
    simp [hle]
  · rw [buddy_free_taken hk1 hk ho', buddy_size_taken hk1 hk ho']
    simp [hle]
  · omega

/-- The offset `0` on `buddy_new(2)`: both walks read `longest[3]`, outside
the three cells. -/
theorem walks_leave_table_witness :
    Reachable 2 (fresh 1) [] ∧
      (buddy_free 2 (fresh 1) ((0 : Nat) : Int) = Except.error Fault.bounds ∧
        buddy_size 2 (fresh 1) ((0 : Nat) : Int) = Except.error Fault.bounds) :=
  have hr : Reachable 2 (fresh 1) [] :=
    Reachable.new (by unfold isInt; decide) (buddy_new_two_pow 1 (by decide))
  ⟨hr, walks_leave_table 2 (fresh 1) [] hr (by decide) 0 (by decide) 2 (by decide)⟩

/-- C19 (round-up helper): for every `x` with `1 ≤ x < 2 ^ 31`, `fixsize x` is
the least power of two above `x`; it is the least power of two that is at
least `x` when `x` is not a power of two, and it is `2 * x` when `x` is one. -/
theorem fixsize_least_power_above (x : Nat) (h1 : 1 ≤ x) (h2 : x < 2 ^ 31) :
    ∃ k, fixsize x = 2 ^ k ∧ x < 2 ^ k ∧ (∀ j, x < 2 ^ j → 2 ^ k ≤ 2 ^ j) ∧
      ((¬ ∃ j, x = 2 ^ j) → ∀ j, x ≤ 2 ^ j → 2 ^ k ≤ 2 ^ j) ∧
      ((∃ j, x = 2 ^ j) → fixsize x = 2 * x) := by
  obtain ⟨k, hlo, hhi⟩ := bracket x (by omega)
  have hk : k ≤ 30 := by
    by_contra hgt
    have : 2 ^ 31 ≤ 2 ^ k := Nat.pow_le_pow_right (by omega) (by omega)
    omega
  have hfix := fixsize_eq hk hlo hhi
  have hmono : ∀ j, 2 ^ k < 2 ^ j → 2 ^ (k + 1) ≤ 2 ^ j := by
    intro j hj
    have := (Nat.pow_lt_pow_iff_right (by omega : 1 < 2)).1 hj
    exact Nat.pow_le_pow_right (by omega) (by omega)
  refine ⟨k + 1, hfix, hhi, fun j hj => hmono j (by omega), ?_, ?_⟩
  · intro hnot j hj
    have hne : x ≠ 2 ^ k := fun e => hnot ⟨k, e⟩
    exact hmono j (by omega)
  · rintro ⟨j, hj⟩
    have hjk : j = k := by
      have h3 : 2 ^ j < 2 ^ (k + 1) := by omega
      have h4 : 2 ^ k ≤ 2 ^ j := by omega
      have := (Nat.pow_lt_pow_iff_right (by omega : 1 < 2)).1 h3
      have := (Nat.pow_le_pow_iff_right (by omega : 1 < 2)).1 h4
      omega
    rw [hfix, hj, hjk, pow_succ]; omega

/-- The values `5` and `8` of C19: `fixsize 5 = 8` and `fixsize 8 = 16`. -/
theorem fixsize_least_power_above_witness :
    fixsize 5 = 8 ∧ fixsize 8 = 2 * 8 ∧
      ∃ k, fixsize 8 = 2 ^ k ∧ 8 < 2 ^ k ∧ (∀ j, 8 < 2 ^ j → 2 ^ k ≤ 2 ^ j) ∧
        ((¬ ∃ j, 8 = 2 ^ j) → ∀ j, 8 ≤ 2 ^ j → 2 ^ k ≤ 2 ^ j) ∧
        ((∃ j, 8 = 2 ^ j) → fixsize 8 = 2 * 8) :=
  ⟨by decide, by decide, fixsize_least_power_above 8 (by decide) (by decide)⟩

end BuddyAlloc
